import Mathlib

/-!
Shallow embedding of the dungeonDB storage engine (Go sources under
internal/storage) used to check the specification claims.

Modelling conventions:
* Go byte slices are `List Nat`; every read goes through `getByte`, which
  truncates to a byte value, and every write stores a byte value, so the
  lists behave as byte strings.
* Go `uint16` arithmetic on in-node positions wraps modulo 65536; the
  wrap is written explicitly (`% 65536`) at the spots where the source
  computes in `uint16`.
* The `BTree` callbacks `Get`/`New`/`Del` manage on-disk pages; they are
  modelled by an explicit page store (`BStore`) threaded through the
  operations, as the specification itself suggests (a `PageSource`
  capability).  `New` hands out fresh page numbers in order and `Del`
  records the freed pointer.
* Functions whose Go body can panic in a way a claim depends on
  (`BTree.Insert`/`BTree.Delete` key-length assertions, `Scanner.Next`
  and the nil-tree dereference inside `NodeReplace2Kid`, bad node type)
  return `Option`; `none` is the panic.  Pure index-bound assertions
  that hold on every path exercised by the claims are not modelled.
* Recursion over page links is not structural, so the tree-walking
  functions take an explicit fuel argument; fuel exhaustion is `none`
  (respectively a failed lookup) and the theorems only use enough fuel.
-/

namespace DungeonDB

abbrev Bytes := List Nat

/-- Read one byte (Go slice indexing); out-of-range reads default to 0. -/
def getByte (l : Bytes) (i : Nat) : Nat := l.getD i 0 % 256

/-- Write one byte (Go slice store); out-of-range writes are dropped. -/
def writeByte (l : Bytes) (i v : Nat) : Bytes := l.set i (v % 256)

/-- binary.LittleEndian: read n bytes starting at pos, least significant first. -/
def readLE (l : Bytes) (pos : Nat) : Nat → Nat
  | 0 => 0
  | n + 1 => getByte l pos + 256 * readLE l (pos + 1) n

/-- binary.LittleEndian: write n bytes of v starting at pos. -/
def writeLE (l : Bytes) (pos : Nat) : Nat → Nat → Bytes
  | 0, _ => l
  | n + 1, v => writeLE (writeByte l pos v) (pos + 1) n (v / 256)

def readU16 (l : Bytes) (pos : Nat) : Nat := readLE l pos 2

def writeU16 (l : Bytes) (pos v : Nat) : Bytes := writeLE l pos 2 v

def readU64 (l : Bytes) (pos : Nat) : Nat := readLE l pos 8

def writeU64 (l : Bytes) (pos v : Nat) : Bytes := writeLE l pos 8 v

/-- Go copy(dst, src): overwrite the prefix of dst with src, keeping the
length of dst (at most min(len dst, len src) bytes are copied). -/
def copyInto : Bytes → Bytes → Bytes
  | d, [] => d
  | [], _ => []
  | _ :: d, s :: ss => s :: copyInto d ss

/-- Go copy(dst[pos:], src): overwrite at most len(dst)-pos bytes at pos. -/
def copyAt : Bytes → Nat → Bytes → Bytes
  | d, 0, src => copyInto d src
  | [], _ + 1, _ => []
  | b :: d, p + 1, src => b :: copyAt d p src

/-- Go bytes.Compare: lexicographic comparison of byte strings. -/
def bytesCompare : Bytes → Bytes → Int
  | [], [] => 0
  | [], _ :: _ => -1
  | _ :: _, [] => 1
  | a :: as, b :: bs => if a < b then -1 else if b < a then 1 else bytesCompare as bs

/-! Constants from btree.go. -/

def BNODE_NODE : Nat := 1
def BNODE_LEAF : Nat := 2
def HEADER : Nat := 4
def BTREE_PAGE_SIZE : Nat := 4096
def BTREE_MAX_KEY_SIZE : Nat := 1000
def BTREE_MAX_VAL_SIZE : Nat := 3000

/-- A B-tree node: a byte page (header, pointers, offsets, key-values). -/
structure BNode where
  Data : Bytes
deriving DecidableEq

def BNode.Btype (node : BNode) : Nat := readU16 node.Data 0

def BNode.Nkeys (node : BNode) : Nat := readU16 node.Data 2

def BNode.SetHeader (node : BNode) (btype nkeys : Nat) : BNode :=
  ⟨writeU16 (writeU16 node.Data 0 btype) 2 nkeys⟩

def BNode.GetPtr (node : BNode) (idx : Nat) : Nat :=
  readU64 node.Data (HEADER + 8 * idx)

def BNode.SetPtr (node : BNode) (idx val : Nat) : BNode :=
  ⟨writeU64 node.Data (HEADER + 8 * idx) val⟩

/-- Position of the stored offset for index idx (1 <= idx <= nkeys); uint16. -/
def OffsetPos (node : BNode) (idx : Nat) : Nat :=
  (HEADER + 8 * node.Nkeys + 2 * (idx - 1)) % 65536

def BNode.GetOffset (node : BNode) (idx : Nat) : Nat :=
  if idx = 0 then 0 else readU16 node.Data (OffsetPos node idx)

def BNode.SetOffset (node : BNode) (idx offset : Nat) : BNode :=
  ⟨writeU16 node.Data (OffsetPos node idx) offset⟩

/-- Byte position of the idx-th KV pair; uint16 arithmetic in the source. -/
def BNode.KvPos (node : BNode) (idx : Nat) : Nat :=
  (HEADER + 8 * node.Nkeys + 2 * node.Nkeys + node.GetOffset idx) % 65536

def BNode.GetKey (node : BNode) (idx : Nat) : Bytes :=
  let pos := node.KvPos idx
  let klen := readU16 node.Data pos
  (node.Data.drop (pos + 4)).take klen

def BNode.GetVal (node : BNode) (idx : Nat) : Bytes :=
  let pos := node.KvPos idx
  let klen := readU16 node.Data pos
  let vlen := readU16 node.Data (pos + 2)
  (node.Data.drop (pos + 4 + klen)).take vlen

/-- Node size in bytes. -/
def BNode.Nbytes (node : BNode) : Nat := node.KvPos node.Nkeys

/-- NodeLookupLE loop body: scan from index i with current best found. -/
def lookupGo (node : BNode) (key : Bytes) : Nat → Nat → Nat → Nat
  | 0, _, found => found
  | fuel + 1, i, found =>
    if i < node.Nkeys then
      let cmp := bytesCompare (node.GetKey i) key
      let found1 := if cmp ≤ 0 then i else found
      if 0 ≤ cmp then found1 else lookupGo node key fuel (i + 1) found1
    else found

/-- Returns the last index i in [1, nkeys) with key[i] <= key (0 if none),
scanning linearly and stopping at the first key >= the target. -/
def NodeLookupLE (node : BNode) (key : Bytes) : Nat :=
  lookupGo node key node.Nkeys 1 0

/-- Copy a KV pair (and child pointer) into position idx of new. -/
def NodeAppendKV (new : BNode) (idx ptr : Nat) (key val : Bytes) : BNode :=
  let new := new.SetPtr idx ptr
  let pos := new.KvPos idx
  let new : BNode := ⟨writeU16 new.Data pos key.length⟩
  let new : BNode := ⟨writeU16 new.Data ((pos + 2) % 65536) val.length⟩
  let new : BNode := ⟨copyAt new.Data ((pos + 4) % 65536) key⟩
  let new : BNode := ⟨copyAt new.Data ((pos + 4 + key.length % 65536) % 65536) val⟩
  new.SetOffset (idx + 1) ((new.GetOffset idx + 4 + (key.length + val.length)) % 65536)

/-- Copy n KVs from old (starting at srcOld) into new (starting at dstNew). -/
def NodeAppendRange (new old : BNode) (dstNew srcOld n : Nat) : BNode :=
  if n = 0 then new
  else
    let new := (List.range n).foldl
      (fun acc i => acc.SetPtr (dstNew + i) (old.GetPtr (srcOld + i))) new
    let dstBegin := new.GetOffset dstNew
    let srcBegin := old.GetOffset srcOld
    let new := (List.range n).foldl
      (fun acc i =>
        acc.SetOffset (dstNew + (i + 1))
          ((dstBegin + old.GetOffset (srcOld + (i + 1)) + 65536 - srcBegin) % 65536))
      new
    let bpos := old.KvPos srcOld
    let epos := old.KvPos (srcOld + n)
    ⟨copyAt new.Data (new.KvPos dstNew) ((old.Data.drop bpos).take (epos - bpos))⟩

/-- Add a new key to a leaf node (insert before position idx). -/
def LeafInsert (new old : BNode) (idx : Nat) (key val : Bytes) : BNode :=
  let new := new.SetHeader BNODE_LEAF ((old.Nkeys + 1) % 65536)
  let new := NodeAppendRange new old 0 0 idx
  let new := NodeAppendKV new idx 0 key val
  NodeAppendRange new old (idx + 1) idx (old.Nkeys - idx)

/-- Update the leaf; the source body is identical to LeafInsert (it also
sets nkeys+1 and re-copies the old entries from position idx onward). -/
def LeafUpadate (new old : BNode) (idx : Nat) (key val : Bytes) : BNode :=
  let new := new.SetHeader BNODE_LEAF ((old.Nkeys + 1) % 65536)
  let new := NodeAppendRange new old 0 0 idx
  let new := NodeAppendKV new idx 0 key val
  NodeAppendRange new old (idx + 1) idx (old.Nkeys - idx)

/-- Remove the key at idx from a leaf node. -/
def LeafDelete (new old : BNode) (idx : Nat) : BNode :=
  let new := new.SetHeader BNODE_LEAF (old.Nkeys - 1)
  let new := NodeAppendRange new old 0 0 idx
  NodeAppendRange new old idx (idx + 1) (old.Nkeys - (idx + 1))

/-- NodeSplit2: split the raw byte buffer of old at its midpoint into the
two destination buffers, truncating each to its share. -/
def NodeSplit2 (leftBuf rightBuf : Bytes) (old : BNode) : BNode × BNode :=
  let mid := old.Data.length / 2
  let l := copyAt leftBuf 0 (old.Data.take mid)
  let r := copyAt rightBuf 0 (old.Data.drop mid)
  (⟨l.take mid⟩, ⟨r.take (old.Data.length - mid)⟩)

/-- NodeSplit3: split a node if it is too big; the result is 1-3 nodes.
The second branch tests left.Btype (as the source does). -/
def NodeSplit3 (old : BNode) : Nat × List BNode :=
  if old.Nbytes ≤ BTREE_PAGE_SIZE then (1, [⟨old.Data.take BTREE_PAGE_SIZE⟩])
  else
    let lr := NodeSplit2 (List.replicate (2 * BTREE_PAGE_SIZE) 0)
      (List.replicate BTREE_PAGE_SIZE 0) old
    if lr.1.Btype ≤ BTREE_PAGE_SIZE then
      (2, [⟨lr.1.Data.take BTREE_PAGE_SIZE⟩, lr.2])
    else
      let lm := NodeSplit2 (List.replicate BTREE_PAGE_SIZE 0)
        (List.replicate BTREE_PAGE_SIZE 0) lr.1
      (3, [lm.1, lm.2, lr.2])

/-! Page store: explicit model of the BTree Get/New/Del callbacks. -/

/-- Page store backing the BTree callbacks.  `get` dereferences a page
number, `next` is the next fresh page number handed out by New, and
`delLog` records the pointers passed to Del. -/
structure BStore where
  get : Nat → Bytes
  next : Nat
  delLog : List Nat

/-- New callback: allocate a fresh page number for the node. -/
def storeNew (s : BStore) (d : Bytes) : Nat × BStore :=
  (s.next,
   { get := fun p => if p = s.next then d else s.get p
     next := s.next + 1
     delLog := s.delLog })

/-- Del callback: deallocate a page. -/
def storeDel (s : BStore) (p : Nat) : BStore :=
  { s with delLog := s.delLog ++ [p] }

/-- The BTree root plus its page store. -/
structure BTree where
  root : Nat
  store : BStore

/-- Replace the kid links from position idx on: allocate each kid and
append (ptr, first key) entries.  Mirrors the loop in NodeReplaceKidN. -/
def appendKids (s : BStore) (new : BNode) (idx : Nat) : List BNode → Nat → BNode × BStore
  | [], _ => (new, s)
  | kid :: rest, i =>
    let ps := storeNew s kid.Data
    let new := NodeAppendKV new (idx + i) ps.1 (kid.GetKey 0) []
    appendKids ps.2 new idx rest (i + 1)

/-- Replace one link of old with links to the given kids.  The tree
argument is `none` when the source passes a nil tree (NodeReplace2Kid);
allocating through a nil tree is a panic, modelled as `none`. -/
def NodeReplaceKidN (tree : Option BStore) (new old : BNode) (idx : Nat)
    (kids : List BNode) : Option (BNode × BStore) :=
  let inc := kids.length
  let new := new.SetHeader BNODE_NODE ((old.Nkeys + inc - 1) % 65536)
  let new := NodeAppendRange new old 0 0 idx
  match tree with
  | none => none
  | some s =>
    let ns := appendKids s new idx kids 0
    some (NodeAppendRange ns.1 old (idx + inc) (idx + 1) (old.Nkeys - (idx + 1)), ns.2)

/-- NodeReplace2Kid builds a temporary child and then calls
NodeReplaceKidN with a nil tree; the kid loop immediately dereferences
the nil tree's New callback, which is a panic in Go. -/
def NodeReplace2Kid (new parentNode : BNode) (idx val : Nat) (key : Bytes) :
    Option (BNode × BStore) :=
  let tempChild : BNode := BNode.SetHeader ⟨List.replicate BTREE_PAGE_SIZE 0⟩ BNODE_LEAF 1
  let tempChild : BNode := ⟨copyAt tempChild.Data 0 key⟩
  let tempChild := tempChild.SetPtr 0 val
  NodeReplaceKidN none new parentNode idx [tempChild]

/-- Should the updated kid be merged with a sibling? -/
def ShouldMerge (get : Nat → Bytes) (node : BNode) (idx : Nat) (updated : BNode) :
    Int × BNode :=
  if BTREE_PAGE_SIZE / 4 < updated.Nbytes then (0, ⟨[]⟩)
  else
    let tryLeft : Option (Int × BNode) :=
      if 0 < idx then
        let sibling : BNode := ⟨get (node.GetPtr (idx - 1))⟩
        let merged := (sibling.Nbytes + updated.Nbytes + 65536 - HEADER) % 65536
        if merged ≤ BTREE_PAGE_SIZE then some (-1, sibling) else none
      else none
    match tryLeft with
    | some r => r
    | none =>
      if idx + 1 < node.Nkeys then
        let sibling : BNode := ⟨get (node.GetPtr (idx + 1))⟩
        let merged := (sibling.Nbytes + updated.Nbytes + 65536 - HEADER) % 65536
        if merged ≤ BTREE_PAGE_SIZE then (1, sibling) else (0, ⟨[]⟩)
      else (0, ⟨[]⟩)

/-- Merge two nodes into one. -/
def NodeMerge (new left right : BNode) : BNode :=
  let new := new.SetHeader left.Btype ((left.Nkeys + right.Nkeys) % 65536)
  let new := NodeAppendRange new left 0 0 left.Nkeys
  NodeAppendRange new right left.Nkeys 0 right.Nkeys

/-- Body of NodeInsert, parametrized by the recursive TreeInsert call
(the fuel plumbing is kept outside so the recursion stays structural):
free the kid, insert recursively, split the result, relink the parent. -/
def NodeInsertF
    (treeIns : BStore → BNode → Bytes → Bytes → Option (BNode × BStore))
    (s : BStore) (new node : BNode) (idx : Nat) (key val : Bytes) :
    Option (BNode × BStore) :=
  let kptr := node.GetPtr idx
  let knode : BNode := ⟨s.get kptr⟩
  let s := storeDel s kptr
  match treeIns s knode key val with
  | none => none
  | some (knode, s) =>
    let ns := NodeSplit3 knode
    NodeReplaceKidN (some s) new node idx (ns.2.take ns.1)

/-- Insert a KV into a node; the result may be bigger than one page and
is split by the caller.  The input node is fetched and freed by the
caller; the leaf cases touch no pages. -/
def TreeInsert (s : BStore) (node : BNode) (key val : Bytes) :
    Nat → Option (BNode × BStore)
  | 0 => none
  | fuel + 1 =>
    let new : BNode := ⟨List.replicate (2 * BTREE_PAGE_SIZE) 0⟩
    let idx := NodeLookupLE node key
    if node.Btype = BNODE_LEAF then
      if key = node.GetKey idx then
        some (LeafUpadate new node idx key val, s)
      else
        some (LeafInsert new node (idx + 1) key val, s)
    else if node.Btype = BNODE_NODE then
      NodeInsertF (fun s1 n k v => TreeInsert s1 n k v fuel) s new node idx key val
    else none

/-- Internal-node step of TreeInsert (named entry point). -/
def NodeInsert (s : BStore) (new node : BNode) (idx : Nat) (key val : Bytes)
    (fuel : Nat) : Option (BNode × BStore) :=
  NodeInsertF (fun s1 n k v => TreeInsert s1 n k v fuel) s new node idx key val

/-- The final interface for insertion (root handling). -/
def BTree.Insert (t : BTree) (key val : Bytes) (fuel : Nat) : Option BTree :=
  if key.length = 0 then none
  else if BTREE_MAX_KEY_SIZE < key.length then none
  else if BTREE_MAX_VAL_SIZE < val.length then none
  else if t.root = 0 then
    let root : BNode := BNode.SetHeader ⟨List.replicate BTREE_PAGE_SIZE 0⟩ BNODE_LEAF 2
    let root := NodeAppendKV root 0 0 [] []
    let root := NodeAppendKV root 1 0 key val
    let ps := storeNew t.store root.Data
    some ⟨ps.1, ps.2⟩
  else
    let node : BNode := ⟨t.store.get t.root⟩
    let s := storeDel t.store t.root
    match TreeInsert s node key val fuel with
    | none => none
    | some (node, s) =>
      let ns := NodeSplit3 node
      if 1 < ns.1 then
        let root : BNode := BNode.SetHeader ⟨List.replicate BTREE_PAGE_SIZE 0⟩ BNODE_NODE ns.1
        let rs := appendKids s root 0 (ns.2.take ns.1) 0
        let ps := storeNew rs.2 rs.1.Data
        some ⟨ps.1, ps.2⟩
      else
        let ps := storeNew s (ns.2.getD 0 ⟨[]⟩).Data
        some ⟨ps.1, ps.2⟩

/-- Body of NodeDelete, parametrized by the recursive TreeDelete call:
recurse into the kid, then possibly merge with a sibling.  The merge
branches call NodeReplace2Kid, which panics on the nil tree (modelled as
none); the no-merge branch asserts the updated child is nonempty. -/
def NodeDeleteF
    (treeDel : BStore → BNode → Bytes → Option (BNode × BStore))
    (s : BStore) (node : BNode) (idx : Nat) (key : Bytes) :
    Option (BNode × BStore) :=
  let kptr := node.GetPtr idx
  match treeDel s ⟨s.get kptr⟩ key with
  | none => none
  | some (updated, s) =>
    if updated.Data.isEmpty then some (⟨[]⟩, s)
    else
      let s := storeDel s kptr
      let new : BNode := ⟨List.replicate BTREE_PAGE_SIZE 0⟩
      let ms := ShouldMerge s.get node idx updated
      if ms.1 < 0 then
        let merged := NodeMerge ⟨List.replicate BTREE_PAGE_SIZE 0⟩ ms.2 updated
        let s := storeDel s (node.GetPtr (idx - 1))
        let ps := storeNew s merged.Data
        match NodeReplace2Kid new node (idx - 1) ps.1 (merged.GetKey 0) with
        | none => none
        | some r => some r
      else if 0 < ms.1 then
        let merged := NodeMerge ⟨List.replicate BTREE_PAGE_SIZE 0⟩ updated ms.2
        let s := storeDel s (node.GetPtr (idx + 1))
        let ps := storeNew s merged.Data
        match NodeReplace2Kid new node idx ps.1 (merged.GetKey 0) with
        | none => none
        | some r => some r
      else
        if updated.Nkeys = 0 then none
        else NodeReplaceKidN (some s) new node idx [updated]

/-- Delete a key from the subtree rooted at node; an empty returned node
means not found. -/
def TreeDelete (s : BStore) (node : BNode) (key : Bytes) :
    Nat → Option (BNode × BStore)
  | 0 => none
  | fuel + 1 =>
    let idx := NodeLookupLE node key
    if node.Btype = BNODE_LEAF then
      if key = node.GetKey idx then
        some (LeafDelete ⟨List.replicate BTREE_PAGE_SIZE 0⟩ node idx, s)
      else
        some (⟨[]⟩, s)
    else if node.Btype = BNODE_NODE then
      NodeDeleteF (fun s1 n k => TreeDelete s1 n k fuel) s node idx key
    else none

/-- Internal-node step of TreeDelete (named entry point). -/
def NodeDelete (s : BStore) (node : BNode) (idx : Nat) (key : Bytes)
    (fuel : Nat) : Option (BNode × BStore) :=
  NodeDeleteF (fun s1 n k => TreeDelete s1 n k fuel) s node idx key

/-- Delete at the root: returns whether the key was found; the updated
root replaces the old one, collapsing one level when the new root is an
internal node with a single key. -/
def BTree.Delete (t : BTree) (key : Bytes) (fuel : Nat) : Option (Bool × BTree) :=
  if key.length = 0 then none
  else if BTREE_MAX_KEY_SIZE < key.length then none
  else if t.root = 0 then some (false, t)
  else
    match TreeDelete t.store ⟨t.store.get t.root⟩ key fuel with
    | none => none
    | some (updated, s) =>
      if updated.Data.isEmpty then some (false, ⟨t.root, s⟩)
      else
        let s := storeDel s t.root
        if updated.Btype = BNODE_NODE ∧ updated.Nkeys = 1 then
          some (true, ⟨updated.GetPtr 0, s⟩)
        else
          let ps := storeNew s updated.Data
          some (true, ⟨ps.1, ps.2⟩)

/-! Master page (kv.go): | sig 16B | btree_root 8B | page_used 8B |. -/

/-- The 16-byte signature: "DungeonDB01" zero-padded (kv.go pads the
11 ASCII bytes with zeros before storing and comparing). -/
def sigPadded : Bytes := [68, 117, 110, 103, 101, 111, 110, 68, 66, 48, 49, 0, 0, 0, 0, 0]

/-- MasterStore formats the 32 master-page bytes from the tree root and
the flushed page count (the file write itself is outside the model). -/
def MasterStore (root used : Nat) : Bytes :=
  let data := copyInto (List.replicate 32 0) sigPadded
  let data := writeU64 data 16 root
  writeU64 data 24 used

/-- Outcome of MasterLoad: a fresh (0-byte) file, a master page with
used == 0 that is re-initialized in place, or the loaded root and used. -/
inductive LoadOutcome where
  | fresh : LoadOutcome
  | reinit : LoadOutcome
  | loaded (root used : Nat) : LoadOutcome
deriving DecidableEq

/-- MasterLoad (kv.go): validate the signature, decode root and used,
check the ranges, and recover the tree root and page count.  fileSize is
db.mmap.file and data is mapping chunk 0.  The used == 0 case rewrites a
fresh master page and returns without error. -/
def MasterLoad (fileSize : Nat) (data : Bytes) : Except String LoadOutcome :=
  if fileSize = 0 then .ok .fresh
  else
    let root := readU64 data 16
    let used := readU64 data 24
    if ¬(data.take 16 = sigPadded) then .error "Bad signature"
    else if used = 0 then .ok .reinit
    else if ¬(used ≤ fileSize / BTREE_PAGE_SIZE) then .error "Bad master page: used out of range"
    else if ¬(root < used) then .error "Bad master page: root out of range"
    else .ok (.loaded root used)

/-! Free list (freelist.go) and page allocation (kv.go). -/

def BNODE_FREE_LIST : Nat := 3
def FREE_LIST_HEADER : Nat := 4 + 8 + 8
def FREE_LIST_CAP : Nat := (BTREE_PAGE_SIZE - FREE_LIST_HEADER) / 8

/-- The free list head pointer and its page-store callbacks (only the
dereference callback is needed by the modelled operations). -/
structure FreeList where
  head : Nat
  get : Nat → Bytes

def flnSize (node : BNode) : Nat := readU16 node.Data 0

def flnNext (node : BNode) : Nat := readU64 node.Data 2

def flnPtr (node : BNode) (idx : Nat) : Nat := readU64 node.Data (10 + idx * 8)

/-- Number of items in the list: the source body is the stub return 0. -/
def FreeList.Total (_ : FreeList) : Nat := 0

/-- Walk of FreeList.Get with fuel for the node chain. -/
def flGetLoop (fl : FreeList) (node : BNode) (topn : Nat) : Nat → Option Nat
  | 0 => none
  | fuel + 1 =>
    if flnSize node ≤ topn then
      let next := flnNext node
      if next = 0 then none
      else flGetLoop fl ⟨fl.get next⟩ (topn - flnSize node) fuel
    else some (flnPtr node (flnSize node - topn - 1))

/-- Get the topn-th pointer from the list; the entry assertion
0 <= topn < Total is modelled as the none case. -/
def FreeList.Get (fl : FreeList) (topn : Nat) : Option Nat :=
  if topn < fl.Total then flGetLoop fl ⟨fl.get fl.head⟩ topn 65536 else none

/-- Update-buffer half of the KV store (kv.go page struct plus the free
list): flushed pages on disk, free-list consumption and append counters,
and the pending page writes keyed by pointer (nil value = deallocated). -/
structure KVState where
  flushed : Nat
  nfree : Nat
  nappend : Nat
  updates : List (Nat × Option Bytes)
  free : FreeList

/-- Callback for BTree, allocate a new page: reuse a free-list pointer
when any is left, else append past the flushed area; record the page in
the update buffer.  The entry assertion len(node.Data) <= page size is
the none case. -/
def KV.PageNew (db : KVState) (node : BNode) : Option (Nat × KVState) :=
  if BTREE_PAGE_SIZE < node.Data.length then none
  else if db.nfree < db.free.Total then
    (db.free.Get db.nfree).map fun ptr =>
      (ptr, { db with nfree := db.nfree + 1, updates := (ptr, some node.Data) :: db.updates })
  else
    let ptr := db.flushed + db.nappend
    some (ptr, { db with nappend := db.nappend + 1, updates := (ptr, some node.Data) :: db.updates })

/-! Typed values and the order-preserving key encoding (table.go). -/

/-- A table cell: the Go struct is a tagged union over INT64 and BYTES
(other type tags make EncodeValues panic and are not modelled). -/
inductive Value where
  | int64 (i : Int) : Value
  | bytes (s : Bytes) : Value
deriving DecidableEq

/-- Escape loop of EscapeString: bytes 0x00 and 0x01 become 0x01 0x01
and 0x01 0x02 respectively; other bytes are copied. -/
def escLoop : Bytes → Bytes
  | [] => []
  | ch :: rest => if ch ≤ 1 then 1 :: (ch + 1) :: escLoop rest else ch :: escLoop rest

/-- EscapeString (table.go): fast path when no 0x00/0x01 byte occurs,
otherwise the escape loop. -/
def EscapeString (inp : Bytes) : Bytes :=
  if inp.count 0 + inp.count 1 = 0 then inp else escLoop inp

/-- uint64(v.I64) + (1 << 63) computed in uint64 arithmetic. -/
def u64OfInt (i : Int) : Nat := ((i.emod (2 ^ 64)).toNat + 2 ^ 63) % 2 ^ 64

/-- binary.BigEndian.PutUint64 and friends: n bytes, most significant
first (the stored value is below 256^n). -/
def beBytes : Nat → Nat → Bytes
  | 0, _ => []
  | n + 1, v => v / 256 ^ n % 256 :: beBytes n (v % 256 ^ n)

/-- EncodeValues (table.go): order-preserving encoding; INT64 maps the
signed value to unsigned by adding 2^63 and writes 8 bytes big-endian,
BYTES appends the escaped string and a null terminator. -/
def EncodeValues (out : Bytes) (vals : List Value) : Bytes :=
  vals.foldl
    (fun acc v =>
      match v with
      | .int64 i => acc ++ beBytes 8 (u64OfInt i)
      | .bytes s => (acc ++ EscapeString s) ++ [0])
    out

/-! B-tree iterator and Scanner (btree.go). -/

def CMP_GE : Int := 3
def CMP_GT : Int := 2
def CMP_LT : Int := -2
def CMP_LE : Int := -3

/-- key cmp ref; an unknown cmp constant panics (none). -/
def cmpOK (key : Bytes) (cmp : Int) (ref : Bytes) : Option Bool :=
  let r := bytesCompare key ref
  if cmp = CMP_GE then some (decide (0 ≤ r))
  else if cmp = CMP_GT then some (decide (0 < r))
  else if cmp = CMP_LT then some (decide (r < 0))
  else if cmp = CMP_LE then some (decide (r ≤ 0))
  else none

/-- B-tree iterator: the root-to-leaf path and the index stacks. -/
structure BIter where
  path : List BNode
  pos : List Nat

/-- Get the current KV pair; indexing an empty path or pos stack is a
panic (none). -/
def BIter.Deref (iter : BIter) : Option (Bytes × Bytes) :=
  match iter.path.getLast?, iter.pos.getLast? with
  | some node, some idx => some (node.GetKey idx, node.GetVal idx)
  | _, _ => none

def BIter.Valid (iter : BIter) : Bool := 0 < iter.path.length

/-- Kid-update block at the end of iterPrev: refresh path and pos one
level below after the position moved. -/
def iterPrevKid (get : Nat → Bytes) (level : Nat) (iter : BIter) : Option BIter :=
  if level + 1 < iter.pos.length then
    match iter.path.get? level, iter.pos.get? level with
    | some node, some pl =>
      let kid : BNode := ⟨get (node.GetPtr pl)⟩
      some ⟨iter.path.set (level + 1) kid, iter.pos.set (level + 1) (kid.Nkeys - 1)⟩
    | _, _ => none
  else some iter

/-- iterPrev: move within this node, or recurse to the parent level; at
the dummy key (level 0, position 0) return without the kid update. -/
def iterPrev (get : Nat → Bytes) : Nat → BIter → Option BIter
  | 0, iter =>
    match iter.pos.get? 0 with
    | none => none
    | some pl =>
      if 0 < pl then iterPrevKid get 0 ⟨iter.path, iter.pos.set 0 (pl - 1)⟩
      else some iter
  | level + 1, iter =>
    match iter.pos.get? (level + 1) with
    | none => none
    | some pl =>
      if 0 < pl then
        iterPrevKid get (level + 1) ⟨iter.path, iter.pos.set (level + 1) (pl - 1)⟩
      else
        match iterPrev get level iter with
        | none => none
        | some iter => iterPrevKid get (level + 1) iter

/-- iterNext is an empty stub in the source; moving forward changes
nothing. -/
def iterNext (iter : BIter) (_ : Nat) : BIter := iter

def BIter.Next (iter : BIter) : BIter := iterNext iter (iter.path.length + 1)

/-- Prev at the top level; with an empty path the source indexes
pos[-1], a panic (none). -/
def BIter.Prev (get : Nat → Bytes) (iter : BIter) : Option BIter :=
  if iter.path.length = 0 then none else iterPrev get (iter.path.length - 1) iter

/-- Range scanner over the B-tree iterator. -/
structure Scanner where
  Cmp1 : Int
  Cmp2 : Int
  keyEnd : Bytes
  iter : BIter
  get : Nat → Bytes

/-- Within the range or not: an exhausted iterator is not valid, else
compare the current key against the encoded end key. -/
def Scanner.Valid (sc : Scanner) : Option Bool :=
  if sc.iter.Valid = false then some false
  else
    match sc.iter.Deref with
    | none => none
    | some kv => cmpOK kv.1 sc.Cmp2 sc.keyEnd

/-- Move the underlying B-tree iterator; the entry assertion
Assert(sc.Valid()) is the none case (both when Valid() is false and when
evaluating Valid() itself panics). -/
def Scanner.Next (sc : Scanner) : Option Scanner :=
  match sc.Valid with
  | some true =>
    if 0 < sc.Cmp1 then some { sc with iter := sc.iter.Next }
    else (sc.iter.Prev sc.get).map fun it => { sc with iter := it }
  | _ => none

/-! Auxiliary predicates used to state the claims. -/

/-- The descent path of TreeDelete (and SeekLE) meets only well-typed
nodes within the given fuel: every visited node is a leaf or an internal
node, following the NodeLookupLE child pointer. -/
def wfPath (get : Nat → Bytes) : Nat → Bytes → Bytes → Bool
  | 0, _, _ => false
  | fuel + 1, nd, key =>
    let node : BNode := ⟨nd⟩
    if node.Btype = BNODE_LEAF then true
    else if node.Btype = BNODE_NODE then
      wfPath get fuel (get (node.GetPtr (NodeLookupLE node key))) key
    else false

/-- Key membership along the descent path: at a leaf the key is present
exactly when it equals the entry NodeLookupLE points at; at an internal
node, recurse into the NodeLookupLE child.  This is the membership the
B-tree search (SeekLE, TreeDelete) realizes. -/
def hasKeyPath (get : Nat → Bytes) : Nat → Bytes → Bytes → Bool
  | 0, _, _ => false
  | fuel + 1, nd, key =>
    let node : BNode := ⟨nd⟩
    let idx := NodeLookupLE node key
    if node.Btype = BNODE_LEAF then decide (key = node.GetKey idx)
    else if node.Btype = BNODE_NODE then
      hasKeyPath get fuel (get (node.GetPtr idx)) key
    else false

/-! Concrete inputs used by the evaluation theorems and witnesses. -/

/-- An empty page store: every page dereferences to nothing, the next
fresh page number is 1. -/
def cStore0 : BStore := ⟨fun _ => [], 1, []⟩

/-- A full 4096-byte leaf page with the dummy entry and one user entry
(key 107, value 118). -/
def cLeafKV : BNode :=
  ⟨[2, 0, 2, 0] ++ List.replicate 16 0 ++ [4, 0, 10, 0] ++ [0, 0, 0, 0] ++
    [1, 0, 1, 0, 107, 118] ++ List.replicate 4062 0⟩

/-- A full 4096-byte leaf page with the dummy entry and two user entries
(keys [10] and [15], each with a 1500-byte value); its Nbytes is 3048. -/
def cLeafBig : BNode :=
  ⟨[2, 0, 3, 0] ++ List.replicate 24 0 ++ [4, 0, 229, 5, 198, 11] ++ [0, 0, 0, 0] ++
    [1, 0, 220, 5, 10] ++ List.replicate 1500 0 ++
    [1, 0, 220, 5, 15] ++ List.replicate 1500 0 ++ List.replicate 1048 0⟩

/-- The oversized node produced by inserting key [20] with a 1500-byte
value into cLeafBig (an insertion that overflows one page). -/
def cBigNode : BNode :=
  match TreeInsert cStore0 cLeafBig [20] (List.replicate 1500 0) 1 with
  | some p => p.1
  | none => ⟨[]⟩

/-- A three-key leaf (dummy, [5], [7]) used as the C4 witness input. -/
def cLookupNode : BNode :=
  ⟨[2, 0, 3, 0] ++ List.replicate 24 0 ++ [4, 0, 9, 0, 14, 0] ++
    [0, 0, 0, 0] ++ [1, 0, 0, 0, 5] ++ [1, 0, 0, 0, 7]⟩

/-- A page store holding a single leaf page (page 1). -/
def cStoreDel : BStore := ⟨fun p => if p = 1 then cLeafKV.Data else [], 2, []⟩

/-- A tree whose root is the single leaf page. -/
def cTreeDel : BTree := ⟨1, cStoreDel⟩

/-- Internal parent node with two children at pages 1 and 2, used as a
C5 input. -/
def cParent : BNode :=
  ⟨[1, 0, 2, 0] ++ [1, 0, 0, 0, 0, 0, 0, 0] ++ [2, 0, 0, 0, 0, 0, 0, 0] ++ [0, 0, 0, 0]⟩

/-- An updated child of exactly a quarter page: Nbytes = 1024. -/
def cUpd1024 : BNode := ⟨[2, 0, 1, 0] ++ List.replicate 8 0 ++ [242, 3]⟩

/-- A small sibling node: Nbytes = 14. -/
def cSibSmall : BNode := ⟨[2, 0, 1, 0] ++ List.replicate 8 0 ++ [0, 0]⟩

/-- Page map for the C5 inputs. -/
def cGetMerge : Nat → Bytes :=
  fun p => if p = 1 then cSibSmall.Data else if p = 2 then cUpd1024.Data else []

/-- A commit state with one flushed page and empty buffers. -/
def cKV : KVState := ⟨1, 0, 0, [], ⟨0, fun _ => []⟩⟩

/-- A concrete in-range scanner over the one-leaf iterator. -/
def cScan : Scanner := ⟨CMP_GE, CMP_LE, [200], ⟨[cLeafKV], [1]⟩, fun _ => []⟩

set_option maxRecDepth 100000

/-! Order lemmas for bytesCompare. -/

theorem bytesCompare_trichotomy (a b : Bytes) :
    bytesCompare a b = -1 ∨ bytesCompare a b = 0 ∨ bytesCompare a b = 1 := by
  induction a generalizing b with
  | nil => cases b <;> simp [bytesCompare]
  | cons x xs ih =>
    cases b with
    | nil => simp [bytesCompare]
    | cons y ys =>
      by_cases h1 : x < y
      · simp [bytesCompare, h1]
      · by_cases h2 : y < x
        · simp [bytesCompare, h1, h2]
        · simpa [bytesCompare, h1, h2] using ih ys

theorem bytesCompare_self (a : Bytes) : bytesCompare a a = 0 := by
  induction a with
  | nil => simp [bytesCompare]
  | cons x xs ih => simp [bytesCompare, ih]

theorem eq_of_bytesCompare_zero {a b : Bytes} (h : bytesCompare a b = 0) : a = b := by
  induction a generalizing b with
  | nil => cases b with
    | nil => rfl
    | cons y ys => simp [bytesCompare] at h
  | cons x xs ih =>
    cases b with
    | nil => simp [bytesCompare] at h
    | cons y ys =>
      by_cases h1 : x < y
      · simp [bytesCompare, h1] at h
      · by_cases h2 : y < x
        · simp [bytesCompare, h1, h2] at h
        · have hxy : x = y := Nat.le_antisymm (Nat.not_lt.mp h2) (Nat.not_lt.mp h1)
          simp [bytesCompare, h1, h2] at h
          exact congrArg₂ _ hxy (ih h)

theorem bytesCompare_neg_iff (a b : Bytes) :
    bytesCompare a b = -1 ↔ bytesCompare b a = 1 := by
  induction a generalizing b with
  | nil => cases b <;> simp [bytesCompare]
  | cons x xs ih =>
    cases b with
    | nil => simp [bytesCompare]
    | cons y ys =>
      by_cases h1 : x < y
      · simp [bytesCompare, h1, Nat.lt_asymm h1, Nat.ne_of_lt h1]
      · by_cases h2 : y < x
        · simp [bytesCompare, h1, h2]
        · simpa [bytesCompare, h1, h2] using ih ys

theorem bytesCompare_lt_trans {a b c : Bytes} (h1 : bytesCompare a b = -1)
    (h2 : bytesCompare b c = -1) : bytesCompare a c = -1 := by
  induction a generalizing b c with
  | nil =>
    cases c with
    | nil =>
      cases b with
      | nil => exact h1
      | cons y ys => simp [bytesCompare] at h2
    | cons z zs => simp [bytesCompare]
  | cons x xs ih =>
    cases b with
    | nil => simp [bytesCompare] at h1
    | cons y ys =>
      cases c with
      | nil => simp [bytesCompare] at h2
      | cons z zs =>
        by_cases hxy : x < y
        · by_cases hyz : y < z
          · simp [bytesCompare, Nat.lt_trans hxy hyz]
          · by_cases hzy : z < y
            · simp [bytesCompare, hyz, hzy] at h2
            · have : y = z := Nat.le_antisymm (Nat.not_lt.mp hzy) (Nat.not_lt.mp hyz)
              subst this
              simp [bytesCompare, hxy]
        · by_cases hyx : y < x
          · simp [bytesCompare, hxy, hyx] at h1
          · have hxy2 : x = y := Nat.le_antisymm (Nat.not_lt.mp hyx) (Nat.not_lt.mp hxy)
            subst hxy2
            by_cases hxz : x < z
            · simp [bytesCompare, hxz]
            · by_cases hzx : z < x
              · simp [bytesCompare, hxz, hzx] at h2
              · have hv : x = z := Nat.le_antisymm (Nat.not_lt.mp hzx) (Nat.not_lt.mp hxz)
                subst hv
                simp [bytesCompare] at h1 h2 ⊢
                exact ih h1 h2

/-! Length preservation of the byte-level write operations. -/

theorem length_writeByte (l : Bytes) (i v : Nat) :
    (writeByte l i v).length = l.length := by
  simp [writeByte]

theorem length_writeLE (n : Nat) : ∀ (l : Bytes) (pos v : Nat),
    (writeLE l pos n v).length = l.length := by
  induction n with
  | zero => intro l pos v; rfl
  | succ n ih => intro l pos v; simp [writeLE, ih, length_writeByte]

theorem length_copyInto : ∀ d s : Bytes, (copyInto d s).length = d.length := by
  intro d
  induction d with
  | nil => intro s; cases s <;> rfl
  | cons b d ih => intro s; cases s with
    | nil => rfl
    | cons x xs => simp [copyInto, ih]

theorem length_copyAt : ∀ (d : Bytes) (p : Nat) (s : Bytes),
    (copyAt d p s).length = d.length := by
  intro d
  induction d with
  | nil => intro p s; cases p <;> simp [copyAt, length_copyInto]
  | cons b d ih => intro p s; cases p with
    | zero => simp [copyAt, length_copyInto]
    | succ p => simp [copyAt, ih]

theorem length_SetHeader (node : BNode) (b k : Nat) :
    (node.SetHeader b k).Data.length = node.Data.length := by
  simp [BNode.SetHeader, writeU16, length_writeLE]

theorem length_SetPtr (node : BNode) (i v : Nat) :
    (node.SetPtr i v).Data.length = node.Data.length := by
  simp [BNode.SetPtr, writeU64, length_writeLE]

theorem length_SetOffset (node : BNode) (i v : Nat) :
    (node.SetOffset i v).Data.length = node.Data.length := by
  simp [BNode.SetOffset, writeU16, length_writeLE]

theorem length_NodeAppendKV (new : BNode) (idx ptr : Nat) (key val : Bytes) :
    (NodeAppendKV new idx ptr key val).Data.length = new.Data.length := by
  simp [NodeAppendKV, length_SetOffset, length_copyAt, writeU16, length_writeLE,
    length_SetPtr]

theorem length_foldl_preserved {α : Type} (f : BNode → α → BNode)
    (hf : ∀ b i, (f b i).Data.length = b.Data.length) :
    ∀ (l : List α) (b : BNode), (l.foldl f b).Data.length = b.Data.length := by
  intro l
  induction l with
  | nil => intro b; rfl
  | cons x xs ih => intro b; rw [List.foldl_cons, ih, hf]

theorem length_NodeAppendRange (new old : BNode) (dstNew srcOld n : Nat) :
    (NodeAppendRange new old dstNew srcOld n).Data.length = new.Data.length := by
  unfold NodeAppendRange
  by_cases h : n = 0
  · simp [h]
  · simp only [h, if_false]
    rw [length_copyAt]
    rw [length_foldl_preserved _ (fun b i => length_SetOffset b _ _)]
    rw [length_foldl_preserved _ (fun b i => length_SetPtr b _ _)]

theorem length_LeafInsert (new old : BNode) (idx : Nat) (key val : Bytes) :
    (LeafInsert new old idx key val).Data.length = new.Data.length := by
  simp [LeafInsert, length_NodeAppendRange, length_NodeAppendKV, length_SetHeader]

theorem length_LeafUpadate (new old : BNode) (idx : Nat) (key val : Bytes) :
    (LeafUpadate new old idx key val).Data.length = new.Data.length := by
  simp [LeafUpadate, length_NodeAppendRange, length_NodeAppendKV, length_SetHeader]

/-! Read-after-write lemmas for the little-endian codec. -/

theorem getD_set_ne (l : List Nat) (i j v : Nat) (h : i ≠ j) :
    (l.set i v).getD j 0 = l.getD j 0 := by
  induction l generalizing i j with
  | nil => simp
  | cons x xs ih =>
    cases i with
    | zero =>
      cases j with
      | zero => exact absurd rfl h
      | succ j => simp [List.set, List.getD]
    | succ i =>
      cases j with
      | zero => simp [List.set, List.getD]
      | succ j =>
        have hne : i ≠ j := fun he => h (by rw [he])
        simpa [List.set, List.getD] using ih i j hne

theorem getD_set_eq (l : List Nat) (i v : Nat) (h : i < l.length) :
    (l.set i v).getD i 0 = v := by
  induction l generalizing i with
  | nil => simp at h
  | cons x xs ih =>
    cases i with
    | zero => simp [List.set, List.getD]
    | succ i => simpa [List.set, List.getD] using ih i (Nat.lt_of_succ_lt_succ h)

theorem getByte_writeByte_ne (l : Bytes) (i j v : Nat) (h : i ≠ j) :
    getByte (writeByte l i v) j = getByte l j := by
  unfold getByte writeByte
  rw [getD_set_ne l i j _ h]

theorem getByte_writeByte_eq (l : Bytes) (i v : Nat) (h : i < l.length) :
    getByte (writeByte l i v) i = v % 256 := by
  unfold getByte writeByte
  rw [getD_set_eq l i _ h, Nat.mod_mod_of_dvd _ (dvd_refl 256)]

theorem getByte_writeLE_lt (n : Nat) : ∀ (l : Bytes) (pos v j : Nat), j < pos →
    getByte (writeLE l pos n v) j = getByte l j := by
  induction n with
  | zero => intro l pos v j _; rfl
  | succ n ih =>
    intro l pos v j hj
    rw [writeLE, ih _ _ _ _ (Nat.lt_succ_of_lt hj),
      getByte_writeByte_ne _ _ _ _ (Nat.ne_of_gt hj)]

theorem readLE_congr (m : Nat) : ∀ (a b : Bytes) (pos : Nat),
    (∀ j, pos ≤ j → j < pos + m → getByte a j = getByte b j) →
    readLE a pos m = readLE b pos m := by
  induction m with
  | zero => intro a b pos _; rfl
  | succ m ih =>
    intro a b pos h
    rw [readLE, readLE, h pos (Nat.le_refl pos) (by omega),
      ih a b (pos + 1) (fun j h1 h2 => h j (by omega) (by omega))]

theorem readLE_writeLE_lt (a : Bytes) (pos n v ppos m : Nat) (h : ppos + m ≤ pos) :
    readLE (writeLE a pos n v) ppos m = readLE a ppos m := by
  refine readLE_congr m _ _ ppos (fun j h1 h2 => ?_)
  exact getByte_writeLE_lt n a pos v j (by omega)

theorem readLE_writeLE_same (n : Nat) : ∀ (l : Bytes) (pos v : Nat),
    pos + n ≤ l.length → readLE (writeLE l pos n v) pos n = v % 256 ^ n := by
  induction n with
  | zero => intro l pos v _; simp [readLE, writeLE, Nat.mod_one]
  | succ n ih =>
    intro l pos v h
    rw [writeLE, readLE]
    rw [getByte_writeLE_lt n _ (pos + 1) _ pos (Nat.lt_succ_self pos)]
    rw [getByte_writeByte_eq l pos v (by omega)]
    rw [ih (writeByte l pos v) (pos + 1) (v / 256) (by rw [length_writeByte]; omega)]
    have h256 : (256 : Nat) ^ (n + 1) = 256 * 256 ^ n := by ring
    rw [h256, Nat.mod_mul]

theorem take_set_of_le (l : List Nat) (i a n : Nat) (h : n ≤ i) :
    (l.set i a).take n = l.take n := by
  induction l generalizing i n with
  | nil => simp
  | cons x xs ih =>
    cases i with
    | zero => simp [Nat.le_zero.mp h]
    | succ i =>
      cases n with
      | zero => simp
      | succ n => simp [List.set, ih i n (Nat.succ_le_succ_iff.mp h)]

theorem take_writeLE_of_le (n : Nat) : ∀ (l : Bytes) (pos v k : Nat), k ≤ pos →
    (writeLE l pos n v).take k = l.take k := by
  induction n with
  | zero => intro l pos v k _; rfl
  | succ n ih =>
    intro l pos v k hk
    rw [writeLE, ih _ _ _ _ (Nat.le_succ_of_le hk), writeByte, take_set_of_le _ _ _ _ hk]

theorem copyInto_eq_append : ∀ d s : Bytes, s.length ≤ d.length →
    copyInto d s = s ++ d.drop s.length := by
  intro d
  induction d with
  | nil => intro s h; simp at h; simp [h, copyInto]
  | cons b d ih =>
    intro s h
    cases s with
    | nil => simp [copyInto]
    | cons x xs => simpa [copyInto] using ih xs (by simpa using h)

/-! Master page lemmas. -/

theorem length_MasterStore (root used : Nat) : (MasterStore root used).length = 32 := by
  simp [MasterStore, writeU64, length_writeLE, length_copyInto]

theorem take16_MasterStore (root used : Nat) : (MasterStore root used).take 16 = sigPadded := by
  simp only [MasterStore, writeU64]
  rw [take_writeLE_of_le 8 _ 24 _ 16 (by omega)]
  rw [take_writeLE_of_le 8 _ 16 _ 16 (by omega)]
  rw [copyInto_eq_append _ sigPadded (by simp [sigPadded])]
  have hlen : sigPadded.length = 16 := by simp [sigPadded]
  rw [← hlen, List.take_left]

theorem readU64_MasterStore_root (root used : Nat) (h : root < 2 ^ 64) :
    readU64 (MasterStore root used) 16 = root := by
  simp only [MasterStore, readU64, writeU64]
  rw [readLE_writeLE_lt _ _ _ _ _ _ (by omega)]
  rw [readLE_writeLE_same 8 _ 16 root (by rw [length_copyInto]; simp)]
  have h8 : (256 : Nat) ^ 8 = 2 ^ 64 := by norm_num
  rw [h8, Nat.mod_eq_of_lt h]

theorem readU64_MasterStore_used (root used : Nat) (h : used < 2 ^ 64) :
    readU64 (MasterStore root used) 24 = used := by
  simp only [MasterStore, readU64, writeU64]
  rw [readLE_writeLE_same 8 _ 24 used
    (by rw [length_writeLE, length_copyInto]; simp)]
  have h8 : (256 : Nat) ^ 8 = 2 ^ 64 := by norm_num
  rw [h8, Nat.mod_eq_of_lt h]

/-- C3 counterexample: a master page whose used field is 0 violates the
bound 1 <= used, yet MasterLoad re-initializes it and returns without
error instead of rejecting it. -/
theorem MasterLoad_used_zero_accepted :
    MasterLoad 4096 (MasterStore 5 0) = .ok .reinit ∧ ¬(1 ≤ (0 : Nat)) := by
  exact ⟨rfl, by decide⟩

/-- C3 (amended): storing the master page and loading it back recovers
exactly the root and used values whenever 1 <= used <= file_bytes/4096
and root < used; a wrong root/used pair with used >= 1 and a wrong
16-byte signature are rejected with an error; a master page with
used = 0 and a valid signature is re-initialized without an error
(it is not rejected). -/
theorem MasterLoad_roundtrip_and_reject :
    (∀ root used fs : Nat, 1 ≤ used → used ≤ fs / BTREE_PAGE_SIZE → root < used →
      root < 2 ^ 64 → used < 2 ^ 64 →
      MasterLoad fs (MasterStore root used) = .ok (.loaded root used)) ∧
    (∀ root used fs : Nat, fs ≠ 0 → 1 ≤ used → root < 2 ^ 64 → used < 2 ^ 64 →
      ¬(used ≤ fs / BTREE_PAGE_SIZE ∧ root < used) →
      ∃ e, MasterLoad fs (MasterStore root used) = .error e) ∧
    (∀ fs (data : Bytes), fs ≠ 0 → data.take 16 ≠ sigPadded →
      ∃ e, MasterLoad fs data = .error e) := by
  refine ⟨?_, ?_, ?_⟩
  · intro root used fs h1 h2 h3 h4 h5
    have hfs : ¬(fs = 0) := by
      intro h0
      rw [h0] at h2
      simp [BTREE_PAGE_SIZE] at h2
      omega
    have hu0 : ¬(used = 0) := by omega
    simp only [MasterLoad, hfs, if_false, readU64_MasterStore_root root used h4,
      readU64_MasterStore_used root used h5, take16_MasterStore, if_neg hu0]
    simp [h2, h3]
  · intro root used fs hfs h1 h2 h3 hbad
    have hu0 : ¬(used = 0) := by omega
    simp only [MasterLoad, hfs, if_false, readU64_MasterStore_root root used h2,
      readU64_MasterStore_used root used h3, take16_MasterStore, if_neg hu0]
    by_cases hle : used ≤ fs / BTREE_PAGE_SIZE
    · have hr : ¬(root < used) := fun hc => hbad ⟨hle, hc⟩
      simp [hle, hr]
    · simp [hle]
  · intro fs data hfs hsig
    simp [MasterLoad, hfs, hsig]

/-- Witness for C3: concrete instances of the three conjuncts. -/
theorem MasterLoad_roundtrip_and_reject_witness :
    MasterLoad 8192 (MasterStore 0 2) = .ok (.loaded 0 2) ∧
    (∃ e, MasterLoad 4096 (MasterStore 1 1) = .error e) ∧
    (∃ e, MasterLoad 4096 [9, 9, 9] = .error e) :=
  ⟨MasterLoad_roundtrip_and_reject.1 0 2 8192 (by decide) (by decide) (by decide)
      (by norm_num) (by norm_num),
   MasterLoad_roundtrip_and_reject.2.1 1 1 4096 (by decide) (by decide)
      (by norm_num) (by norm_num) (by decide),
   MasterLoad_roundtrip_and_reject.2.2 4096 [9, 9, 9] (by decide) (by decide)⟩

/-! NodeLookupLE lemmas (C4). -/

theorem lookupGo_spec (node : BNode) (key : Bytes)
    (hs : ∀ j, j < node.Nkeys → ∀ i, i < j → 1 ≤ i →
      bytesCompare (node.GetKey i) (node.GetKey j) = -1) :
    ∀ fuel i, 1 ≤ i → node.Nkeys ≤ i + fuel → (i = 1 ∨ i ≤ node.Nkeys) →
    (∀ j, 1 ≤ j → j < i → bytesCompare (node.GetKey j) key = -1) →
    (1 ≤ lookupGo node key fuel i (i - 1) →
      lookupGo node key fuel i (i - 1) < node.Nkeys ∧
      bytesCompare (node.GetKey (lookupGo node key fuel i (i - 1))) key ≤ 0) ∧
    (∀ j, lookupGo node key fuel i (i - 1) < j → j < node.Nkeys →
      bytesCompare (node.GetKey j) key = 1) := by
  intro fuel
  induction fuel with
  | zero =>
    intro i h1 hle hi hpre
    have hni : ¬(i < node.Nkeys) := by omega
    simp only [lookupGo]
    constructor
    · intro hr
      have hlt : i - 1 < node.Nkeys := by omega
      exact ⟨hlt, by rw [hpre (i - 1) hr (by omega)]; decide⟩
    · intro j hj1 hj2
      omega
  | succ fuel ih =>
    intro i h1 hle hi hpre
    by_cases hin : i < node.Nkeys
    · rcases bytesCompare_trichotomy (node.GetKey i) key with hc | hc | hc
      · -- strictly below the key: continue scanning
        have hstep : lookupGo node key (fuel + 1) i (i - 1) =
            lookupGo node key fuel (i + 1) i := by
          simp only [lookupGo, hin, if_pos, hc]
          norm_num
        rw [hstep]
        have hnext := ih (i + 1) (by omega) (by omega) (Or.inr (by omega))
          (fun j hj1 hj2 => by
            rcases Nat.lt_or_ge j i with hj | hj
            · exact hpre j hj1 hj
            · have hji : j = i := by omega
              rw [hji]; exact hc)
        have heq : i + 1 - 1 = i := by omega
        rw [heq] at hnext
        exact hnext
      · -- equal key: record and break
        have hstep : lookupGo node key (fuel + 1) i (i - 1) = i := by
          simp only [lookupGo, hin, if_pos, hc]
          norm_num
        rw [hstep]
        refine ⟨fun _ => ⟨hin, by rw [hc]⟩, fun j hj1 hj2 => ?_⟩
        have hkey : node.GetKey i = key := eq_of_bytesCompare_zero hc
        have hij : bytesCompare (node.GetKey i) (node.GetKey j) = -1 :=
          hs j hj2 i hj1 h1
        rw [hkey] at hij
        exact (bytesCompare_neg_iff _ _).mp hij
      · -- above the key: break with the previous best
        have hstep : lookupGo node key (fuel + 1) i (i - 1) = i - 1 := by
          simp only [lookupGo, hin, if_pos, hc]
          norm_num
        rw [hstep]
        constructor
        · intro hr
          exact ⟨by omega, by rw [hpre (i - 1) hr (by omega)]; decide⟩
        · intro j hj1 hj2
          have hij : i ≤ j := by omega
          rcases Nat.eq_or_lt_of_le hij with hj | hj
          · rw [← hj]; exact hc
          · have hlt : bytesCompare (node.GetKey i) (node.GetKey j) = -1 :=
              hs j hj2 i hj h1
            have hk : bytesCompare key (node.GetKey i) = -1 :=
              (bytesCompare_neg_iff _ _).mpr hc
            have hkj : bytesCompare key (node.GetKey j) = -1 :=
              bytesCompare_lt_trans hk hlt
            exact (bytesCompare_neg_iff _ _).mp hkj
    · simp only [lookupGo, hin, if_neg, ite_false]
      constructor
      · intro hr
        have hlt : i - 1 < node.Nkeys := by omega
        exact ⟨hlt, by rw [hpre (i - 1) hr (by omega)]; decide⟩
      · intro j hj1 hj2
        omega

/-- C4: on a node whose keys at indexes 1..nkeys-1 are strictly
increasing in byte order, NodeLookupLE returns the highest index i in
[1, nkeys) with key[i] <= target, and 0 when no such index exists. -/
theorem NodeLookupLE_highest (node : BNode) (key : Bytes)
    (hs : ∀ j, j < node.Nkeys → ∀ i, i < j → 1 ≤ i →
      bytesCompare (node.GetKey i) (node.GetKey j) = -1) :
    (∀ i, 1 ≤ i → i < node.Nkeys → bytesCompare (node.GetKey i) key ≤ 0 →
      i ≤ NodeLookupLE node key) ∧
    (1 ≤ NodeLookupLE node key →
      NodeLookupLE node key < node.Nkeys ∧
      bytesCompare (node.GetKey (NodeLookupLE node key)) key ≤ 0) ∧
    ((∀ i, 1 ≤ i → i < node.Nkeys → ¬(bytesCompare (node.GetKey i) key ≤ 0)) →
      NodeLookupLE node key = 0) := by
  have h := lookupGo_spec node key hs node.Nkeys 1 (Nat.le_refl 1) (by omega)
    (Or.inl rfl) (fun j hj1 hj2 => by omega)
  have hz : (1 : Nat) - 1 = 0 := rfl
  rw [hz] at h
  have hdef : NodeLookupLE node key = lookupGo node key node.Nkeys 1 0 := rfl
  refine ⟨?_, ?_, ?_⟩
  · intro i hi1 hi2 hle
    by_contra hgt
    have hri : NodeLookupLE node key < i := by omega
    have hcmp := h.2 i (by rw [hdef] at hri; exact hri) hi2
    rw [hcmp] at hle
    norm_num at hle
  · intro hr
    rw [hdef] at hr ⊢
    exact h.1 hr
  · intro hnone
    by_contra h0
    have hr : 1 ≤ NodeLookupLE node key := by omega
    have hr2 : 1 ≤ lookupGo node key node.Nkeys 1 0 := by rw [← hdef]; exact hr
    have hc := h.1 hr2
    exact hnone (NodeLookupLE node key) hr (by rw [hdef]; exact hc.1)
      (by rw [hdef]; exact hc.2)

/-- Witness for C4 at a concrete sorted node and target key. -/
theorem NodeLookupLE_highest_witness :
    NodeLookupLE cLookupNode [6] < cLookupNode.Nkeys ∧
    bytesCompare (cLookupNode.GetKey (NodeLookupLE cLookupNode [6])) [6] ≤ 0 :=
  (NodeLookupLE_highest cLookupNode [6] (by decide)).2.1 (by decide)

/-- C5 (amended): ShouldMerge reports a merge, preferring the left
sibling, exactly when the updated child is at most a quarter page
(<= 1024 bytes, the source tests Nbytes > PAGE/4) and the corresponding
sibling exists with combined size minus the shared 4-byte header at most
one page.  Sibling pages are assumed to have sane sizes (between the
4-byte header and one page), which rules out uint16 wrap-around in the
combined-size computation. -/
theorem ShouldMerge_spec (get : Nat → Bytes) (node : BNode) (idx : Nat)
    (updated : BNode)
    (hL : 0 < idx → 4 ≤ (BNode.mk (get (node.GetPtr (idx - 1)))).Nbytes ∧
      (BNode.mk (get (node.GetPtr (idx - 1)))).Nbytes ≤ 4096)
    (hR : idx + 1 < node.Nkeys → 4 ≤ (BNode.mk (get (node.GetPtr (idx + 1)))).Nbytes ∧
      (BNode.mk (get (node.GetPtr (idx + 1)))).Nbytes ≤ 4096) :
    (((ShouldMerge get node idx updated).1 = -1 ↔
      (updated.Nbytes ≤ 1024 ∧ 0 < idx ∧
        (BNode.mk (get (node.GetPtr (idx - 1)))).Nbytes + updated.Nbytes - 4 ≤ 4096)) ∧
    ((ShouldMerge get node idx updated).1 = 1 ↔
      (¬(updated.Nbytes ≤ 1024 ∧ 0 < idx ∧
          (BNode.mk (get (node.GetPtr (idx - 1)))).Nbytes + updated.Nbytes - 4 ≤ 4096) ∧
        updated.Nbytes ≤ 1024 ∧ idx + 1 < node.Nkeys ∧
        (BNode.mk (get (node.GetPtr (idx + 1)))).Nbytes + updated.Nbytes - 4 ≤ 4096)) ∧
    ((updated.Nbytes ≤ 1024 ∧ 0 < idx ∧
        (BNode.mk (get (node.GetPtr (idx - 1)))).Nbytes + updated.Nbytes - 4 ≤ 4096) →
      ShouldMerge get node idx updated = (-1, ⟨get (node.GetPtr (idx - 1))⟩)) ∧
    ((¬(updated.Nbytes ≤ 1024 ∧ 0 < idx ∧
          (BNode.mk (get (node.GetPtr (idx - 1)))).Nbytes + updated.Nbytes - 4 ≤ 4096) ∧
        updated.Nbytes ≤ 1024 ∧ idx + 1 < node.Nkeys ∧
        (BNode.mk (get (node.GetPtr (idx + 1)))).Nbytes + updated.Nbytes - 4 ≤ 4096) →
      ShouldMerge get node idx updated = (1, ⟨get (node.GetPtr (idx + 1))⟩))) := by
  set nbL := (BNode.mk (get (node.GetPtr (idx - 1)))).Nbytes with hnbL
  set nbR := (BNode.mk (get (node.GetPtr (idx + 1)))).Nbytes with hnbR
  by_cases hq : BTREE_PAGE_SIZE / 4 < updated.Nbytes
  · have hq2 : ¬(updated.Nbytes ≤ 1024) := by
      simp [BTREE_PAGE_SIZE] at hq; omega
    simp [ShouldMerge, hq, hq2]
  · have hq2 : updated.Nbytes ≤ 1024 := by
      simp [BTREE_PAGE_SIZE] at hq; omega
    have hq3 : ¬(1024 < updated.Nbytes) := by omega
    by_cases hidx : 0 < idx
    · have hbound := hL hidx
      have harith : (nbL + updated.Nbytes + 65536 - HEADER) % 65536 =
          nbL + updated.Nbytes - 4 := by
        simp only [HEADER]; omega
      by_cases hm : nbL + updated.Nbytes - 4 ≤ 4096
      · simp [ShouldMerge, hq, hq3, hidx, harith, hm, BTREE_PAGE_SIZE, hq2]
      · by_cases hr : idx + 1 < node.Nkeys
        · have hboundR := hR hr
          have harithR : (nbR + updated.Nbytes + 65536 - HEADER) % 65536 =
              nbR + updated.Nbytes - 4 := by
            simp only [HEADER]; omega
          by_cases hm2 : nbR + updated.Nbytes - 4 ≤ 4096
          · simp [ShouldMerge, hq, hq3, hidx, harith, hm, hr, harithR, hm2,
              BTREE_PAGE_SIZE, hq2]
          · simp [ShouldMerge, hq, hq3, hidx, harith, hm, hr, harithR, hm2,
              BTREE_PAGE_SIZE, hq2]
        · simp [ShouldMerge, hq, hq3, hidx, harith, hm, hr, BTREE_PAGE_SIZE, hq2]
    · by_cases hr : idx + 1 < node.Nkeys
      · have hboundR := hR hr
        have harithR : (nbR + updated.Nbytes + 65536 - HEADER) % 65536 =
            nbR + updated.Nbytes - 4 := by
          simp only [HEADER]; omega
        by_cases hm2 : nbR + updated.Nbytes - 4 ≤ 4096
        · simp [ShouldMerge, hq, hq3, hidx, hr, harithR, hm2, BTREE_PAGE_SIZE, hq2]
        · simp [ShouldMerge, hq, hq3, hidx, hr, harithR, hm2, BTREE_PAGE_SIZE, hq2]
      · simp [ShouldMerge, hq, hq3, hidx, hr, BTREE_PAGE_SIZE, hq2]

/-- C5 counterexample: a child of exactly a quarter page (1024 bytes,
not smaller than a quarter page) still triggers a left merge, because
the source tests Nbytes > PAGE/4 rather than Nbytes >= PAGE/4. -/
theorem ShouldMerge_quarter_boundary :
    ShouldMerge cGetMerge cParent 1 cUpd1024 = (-1, cSibSmall) ∧
    ¬(cUpd1024.Nbytes < BTREE_PAGE_SIZE / 4) := by
  exact ⟨rfl, by decide⟩

/-- Witness for C5 at the concrete quarter-page boundary input. -/
theorem ShouldMerge_spec_witness :
    ShouldMerge cGetMerge cParent 1 cUpd1024 =
      (-1, ⟨cGetMerge (cParent.GetPtr 0)⟩) :=
  (ShouldMerge_spec cGetMerge cParent 1 cUpd1024 (by decide) (by decide)).2.2.1
    (by decide)

/-- TreeDelete returns the empty node and an untouched store whenever
the descent is well typed and the key is absent along it. -/
theorem TreeDelete_not_found (key : Bytes) :
    ∀ (fuel : Nat) (s : BStore) (nd : Bytes),
      wfPath s.get fuel nd key = true →
      hasKeyPath s.get fuel nd key = false →
      TreeDelete s ⟨nd⟩ key fuel = some (⟨[]⟩, s) := by
  intro fuel
  induction fuel with
  | zero => intro s nd hwf _; simp [wfPath] at hwf
  | succ fuel ih =>
    intro s nd hwf hkey
    by_cases hleaf : (BNode.mk nd).Btype = BNODE_LEAF
    · simp only [hasKeyPath, hleaf, if_true, decide_eq_false_iff_not] at hkey
      simp [TreeDelete, hleaf, hkey]
    · by_cases hnode : (BNode.mk nd).Btype = BNODE_NODE
      · simp only [wfPath, hleaf, if_false, hnode, if_true, BNODE_NODE, BNODE_LEAF] at hwf
        simp only [hasKeyPath, hleaf, if_false, hnode, if_true, BNODE_NODE, BNODE_LEAF] at hkey
        have hrec := ih s (s.get ((BNode.mk nd).GetPtr
          (NodeLookupLE (BNode.mk nd) key))) hwf hkey
        simp [TreeDelete, hleaf, hnode, NodeDeleteF, hrec, List.isEmpty,
          BNODE_NODE, BNODE_LEAF]
      · simp [wfPath, hleaf, hnode] at hwf

/-- C6: deleting a key that is absent from the tree (including the empty
tree with root 0) returns false and leaves the tree unchanged: same root
pointer and a page store with no page allocated or deallocated. -/
theorem Delete_absent_key (t : BTree) (key : Bytes) (fuel : Nat)
    (hk1 : 0 < key.length) (hk2 : key.length ≤ BTREE_MAX_KEY_SIZE)
    (habs : t.root = 0 ∨
      (wfPath t.store.get fuel (t.store.get t.root) key = true ∧
        hasKeyPath t.store.get fuel (t.store.get t.root) key = false)) :
    BTree.Delete t key fuel = some (false, t) := by
  have hk0 : ¬(key.length = 0) := by omega
  have hk3 : ¬(BTREE_MAX_KEY_SIZE < key.length) := by omega
  rcases habs with hroot | ⟨hwf, hkey⟩
  · simp [BTree.Delete, hk0, hk3, hroot]
  · by_cases hroot : t.root = 0
    · simp [BTree.Delete, hk0, hk3, hroot]
    · have hdel := TreeDelete_not_found key fuel t.store (t.store.get t.root) hwf hkey
      simp [BTree.Delete, hk0, hk3, hroot, hdel, List.isEmpty]

/-- Witness for C6: deleting the absent key [99] from the one-leaf tree
returns false and leaves the tree untouched. -/
theorem Delete_absent_key_witness :
    BTree.Delete cTreeDel [99] 1 = some (false, cTreeDel) :=
  Delete_absent_key cTreeDel [99] 1 (by decide) (by decide)
    (Or.inr ⟨by decide, by decide⟩)

/-! Order preservation of the key encoding (C8). -/

theorem bytesCompare_cons_cons (x y : Nat) (xs ys : Bytes) :
    bytesCompare (x :: xs) (y :: ys) =
      if x < y then -1 else if y < x then 1 else bytesCompare xs ys := rfl

theorem escLoop_of_no_special (a : Bytes) (h : ∀ c ∈ a, ¬c ≤ 1) : escLoop a = a := by
  induction a with
  | nil => rfl
  | cons c as ih =>
    have hc : ¬c ≤ 1 := h c (List.mem_cons_self c as)
    rw [escLoop, if_neg hc, ih (fun x hx => h x (List.mem_cons_of_mem c hx))]

theorem EscapeString_eq_escLoop (a : Bytes) : EscapeString a = escLoop a := by
  unfold EscapeString
  by_cases h : a.count 0 + a.count 1 = 0
  · rw [if_pos h]
    have h0 : a.count 0 = 0 := by omega
    have h1 : a.count 1 = 0 := by omega
    rw [List.count_eq_zero] at h0 h1
    rw [escLoop_of_no_special a]
    intro c hc hcle
    rcases Nat.le_one_iff_eq_zero_or_eq_one.mp hcle with h | h
    · exact h0 (h ▸ hc)
    · exact h1 (h ▸ hc)
  · rw [if_neg h]

theorem escLoop_order : ∀ a b : Bytes,
    (bytesCompare (escLoop a ++ [0]) (escLoop b ++ [0]) = -1 ↔
      bytesCompare a b = -1) := by
  intro a
  induction a with
  | nil =>
    intro b
    cases b with
    | nil => simp [escLoop, bytesCompare]
    | cons c bs =>
      by_cases hc : c ≤ 1
      · simp [escLoop, hc, bytesCompare]
      · have h0 : 0 < c := by omega
        simp [escLoop, hc, bytesCompare, h0]
  | cons c1 as ih =>
    intro b
    cases b with
    | nil =>
      by_cases hc : c1 ≤ 1
      · simp [escLoop, hc, bytesCompare]
      · have h0 : 0 < c1 := by omega
        simp [escLoop, hc, bytesCompare, h0]
    | cons c2 bs =>
      by_cases hc1 : c1 ≤ 1 <;> by_cases hc2 : c2 ≤ 1
      · rcases Nat.lt_trichotomy c1 c2 with h | h | h
        · have hs : c1 + 1 < c2 + 1 := by omega
          simp [escLoop, hc1, hc2, bytesCompare_cons_cons, h, hs]
        · subst h
          simp only [escLoop, hc1, hc2, if_true, List.cons_append,
            bytesCompare_cons_cons, Nat.lt_irrefl, if_false]
          exact ih bs
        · have hs : c2 + 1 < c1 + 1 := by omega
          simp [escLoop, hc1, hc2, bytesCompare_cons_cons, h, hs,
            Nat.lt_asymm h, Nat.lt_asymm hs]
      · have hh : (1 : Nat) < c2 := by omega
        have hcc : c1 < c2 := by omega
        simp [escLoop, hc1, hc2, bytesCompare_cons_cons, hh, hcc]
      · have hh : (1 : Nat) < c1 := by omega
        have hcc : c2 < c1 := by omega
        simp [escLoop, hc1, hc2, bytesCompare_cons_cons, hh, hcc,
          Nat.lt_asymm hh, Nat.lt_asymm hcc]
      · rcases Nat.lt_trichotomy c1 c2 with h | h | h
        · simp [escLoop, hc1, hc2, bytesCompare_cons_cons, h]
        · subst h
          simp only [escLoop, hc1, hc2, if_false, List.cons_append,
            bytesCompare_cons_cons, Nat.lt_irrefl]
          exact ih bs
        · simp [escLoop, hc1, hc2, bytesCompare_cons_cons, h, Nat.lt_asymm h]

theorem digit_compare (m q1 r1 q2 r2 : Nat) (hr1 : r1 < m) (hr2 : r2 < m) :
    (q1 < q2 → m * q1 + r1 < m * q2 + r2) ∧
    (q2 < q1 → ¬(m * q1 + r1 < m * q2 + r2)) := by
  constructor
  · intro hq
    have h1 : m * q1 + r1 < m * (q1 + 1) := by rw [Nat.mul_succ]; omega
    have h2 : m * (q1 + 1) ≤ m * q2 := Nat.mul_le_mul_left m hq
    omega
  · intro hq
    have h1 : m * q2 + r2 < m * (q2 + 1) := by rw [Nat.mul_succ]; omega
    have h2 : m * (q2 + 1) ≤ m * q1 := Nat.mul_le_mul_left m hq
    omega

theorem beBytes_lt_iff : ∀ (n u1 u2 : Nat), u1 < 256 ^ n → u2 < 256 ^ n →
    (bytesCompare (beBytes n u1) (beBytes n u2) = -1 ↔ u1 < u2) := by
  intro n
  induction n with
  | zero =>
    intro u1 u2 h1 h2
    simp [Nat.pow_zero, Nat.lt_one_iff] at h1 h2
    simp [beBytes, bytesCompare, h1, h2]
  | succ n ih =>
    intro u1 u2 h1 h2
    have hm : (0 : Nat) < 256 ^ n := Nat.pos_pow_of_pos n (by omega)
    have hpow : (256 : Nat) ^ (n + 1) = 256 ^ n * 256 := by ring
    have hq1 : u1 / 256 ^ n < 256 := by
      rw [Nat.div_lt_iff_lt_mul hm]; omega
    have hq2 : u2 / 256 ^ n < 256 := by
      rw [Nat.div_lt_iff_lt_mul hm]; omega
    have hmod1 : u1 / 256 ^ n % 256 = u1 / 256 ^ n := Nat.mod_eq_of_lt hq1
    have hmod2 : u2 / 256 ^ n % 256 = u2 / 256 ^ n := Nat.mod_eq_of_lt hq2
    have hr1 : u1 % 256 ^ n < 256 ^ n := Nat.mod_lt u1 hm
    have hr2 : u2 % 256 ^ n < 256 ^ n := Nat.mod_lt u2 hm
    have hu1 : 256 ^ n * (u1 / 256 ^ n) + u1 % 256 ^ n = u1 := Nat.div_add_mod u1 _
    have hu2 : 256 ^ n * (u2 / 256 ^ n) + u2 % 256 ^ n = u2 := Nat.div_add_mod u2 _
    have hd := digit_compare (256 ^ n) (u1 / 256 ^ n) (u1 % 256 ^ n)
      (u2 / 256 ^ n) (u2 % 256 ^ n) hr1 hr2
    rw [beBytes, beBytes, hmod1, hmod2, bytesCompare_cons_cons]
    rcases Nat.lt_trichotomy (u1 / 256 ^ n) (u2 / 256 ^ n) with hq | hq | hq
    · rw [if_pos hq]
      have := hd.1 hq
      constructor
      · intro _; omega
      · intro _; rfl
    · rw [hq, if_neg (Nat.lt_irrefl _), if_neg (Nat.lt_irrefl _)]
      rw [ih (u1 % 256 ^ n) (u2 % 256 ^ n) hr1 hr2]
      constructor
      · intro hlt
        have h256 : 256 ^ n * (u1 / 256 ^ n) = 256 ^ n * (u2 / 256 ^ n) := by rw [hq]
        omega
      · intro hlt
        have h256 : 256 ^ n * (u1 / 256 ^ n) = 256 ^ n * (u2 / 256 ^ n) := by rw [hq]
        omega
    · rw [if_neg (Nat.lt_asymm hq), if_pos hq]
      have := hd.2 hq
      constructor
      · intro hc
        norm_num at hc
      · intro hc
        omega

theorem u64OfInt_of_range (i : Int) (h1 : -(2 ^ 63) ≤ i) (h2 : i < 2 ^ 63) :
    u64OfInt i = (i + 2 ^ 63).toNat := by
  unfold u64OfInt
  rcases le_or_lt 0 i with hi | hi
  · have hmod : i.emod (2 ^ 64) = i := Int.emod_eq_of_lt hi (by omega)
    rw [hmod]
    omega
  · have hstep : (i + 2 ^ 64 * 1).emod (2 ^ 64) = i.emod (2 ^ 64) :=
      Int.add_mul_emod_self_left i (2 ^ 64) 1
    have hval : (i + 2 ^ 64 * 1).emod (2 ^ 64) = i + 2 ^ 64 :=
      Int.emod_eq_of_lt (by omega) (by omega)
    have hmod : i.emod (2 ^ 64) = i + 2 ^ 64 := by rw [← hstep, hval]
    rw [hmod]
    omega

/-- C8: the encoded key of a typed value v1 is lexicographically below
that of v2 exactly when v1 < v2 in the native order of the shared type:
signed integer order for INT64 (over the int64 range) and byte-string
order for BYTES. -/
theorem EncodeValues_order :
    (∀ i1 i2 : Int, -(2 ^ 63) ≤ i1 → i1 < 2 ^ 63 → -(2 ^ 63) ≤ i2 → i2 < 2 ^ 63 →
      (bytesCompare (EncodeValues [] [Value.int64 i1])
          (EncodeValues [] [Value.int64 i2]) = -1 ↔ i1 < i2)) ∧
    (∀ s1 s2 : Bytes,
      (bytesCompare (EncodeValues [] [Value.bytes s1])
          (EncodeValues [] [Value.bytes s2]) = -1 ↔ bytesCompare s1 s2 = -1)) := by
  constructor
  · intro i1 i2 ha1 hb1 ha2 hb2
    have henc : ∀ i : Int, EncodeValues [] [Value.int64 i] = beBytes 8 (u64OfInt i) := by
      intro i; simp [EncodeValues]
    rw [henc, henc]
    have hlt1 : u64OfInt i1 < 256 ^ 8 := by
      unfold u64OfInt
      have : (256 : Nat) ^ 8 = 2 ^ 64 := by norm_num
      rw [this]
      exact Nat.mod_lt _ (by norm_num)
    have hlt2 : u64OfInt i2 < 256 ^ 8 := by
      unfold u64OfInt
      have : (256 : Nat) ^ 8 = 2 ^ 64 := by norm_num
      rw [this]
      exact Nat.mod_lt _ (by norm_num)
    rw [beBytes_lt_iff 8 _ _ hlt1 hlt2]
    rw [u64OfInt_of_range i1 ha1 hb1, u64OfInt_of_range i2 ha2 hb2]
    omega
  · intro s1 s2
    have henc : ∀ s : Bytes, EncodeValues [] [Value.bytes s] = escLoop s ++ [0] := by
      intro s; simp [EncodeValues, EscapeString_eq_escLoop]
    rw [henc, henc]
    exact escLoop_order s1 s2

/-- Witness for C8: a concrete INT64 pair and a concrete BYTES pair. -/
theorem EncodeValues_order_witness :
    bytesCompare (EncodeValues [] [Value.int64 (-5)])
      (EncodeValues [] [Value.int64 3]) = -1 ∧
    bytesCompare (EncodeValues [] [Value.bytes [0]])
      (EncodeValues [] [Value.bytes [2]]) = -1 :=
  ⟨(EncodeValues_order.1 (-5) 3 (by norm_num) (by norm_num) (by norm_num)
      (by norm_num)).mpr (by norm_num),
   (EncodeValues_order.2 [0] [2]).mpr (by decide)⟩

/-- C9: PageNew reuses a free-list pointer and bumps nfree when
nfree < free.Total(), otherwise returns flushed + nappend and bumps
nappend, recording the page in the update buffer; consequently every
returned pointer is at least flushed or comes from the free list. -/
theorem PageNew_spec (db : KVState) (node : BNode)
    (hnode : node.Data.length ≤ BTREE_PAGE_SIZE) :
    (db.nfree < db.free.Total →
      KV.PageNew db node = (db.free.Get db.nfree).map fun ptr =>
        (ptr, { db with nfree := db.nfree + 1,
                        updates := (ptr, some node.Data) :: db.updates })) ∧
    (¬db.nfree < db.free.Total →
      KV.PageNew db node = some (db.flushed + db.nappend,
        { db with nappend := db.nappend + 1,
                  updates := (db.flushed + db.nappend, some node.Data) :: db.updates })) ∧
    (∀ ptr st2, KV.PageNew db node = some (ptr, st2) →
      db.flushed ≤ ptr ∨ db.nfree < db.free.Total) := by
  have hlen : ¬(BTREE_PAGE_SIZE < node.Data.length) := by omega
  have htot : db.free.Total = 0 := rfl
  refine ⟨?_, ?_, ?_⟩
  · intro hfree
    rw [htot] at hfree
    omega
  · intro hfree
    simp [KV.PageNew, hlen, hfree]
  · intro ptr st2 hnew
    have hfree : ¬db.nfree < db.free.Total := by rw [htot]; omega
    simp [KV.PageNew, hlen, hfree] at hnew
    left
    omega

/-- Witness for C9: allocating a page in the concrete commit state
appends right after the flushed area. -/
theorem PageNew_spec_witness :
    KV.PageNew cKV ⟨[]⟩ = some (cKV.flushed + cKV.nappend,
      { cKV with nappend := cKV.nappend + 1,
                 updates := (cKV.flushed + cKV.nappend, some (BNode.mk []).Data)
                   :: cKV.updates }) :=
  (PageNew_spec cKV ⟨[]⟩ (by decide)).2.1 (by decide)

/-! Scanner.Next lemmas (C10). -/

theorem iterPrevKid_spec (get : Nat → Bytes) (level : Nat) (iter : BIter)
    (hp : level < iter.path.length) (hq : level < iter.pos.length) :
    ∃ it2, iterPrevKid get level iter = some it2 ∧
      it2.path.length = iter.path.length ∧ it2.pos.length = iter.pos.length := by
  unfold iterPrevKid
  by_cases h : level + 1 < iter.pos.length
  · rw [if_pos h]
    rw [List.get?_eq_get hp, List.get?_eq_get hq]
    exact ⟨_, rfl, by simp, by simp⟩
  · rw [if_neg h]
    exact ⟨iter, rfl, rfl, rfl⟩

theorem iterPrev_spec (get : Nat → Bytes) : ∀ (level : Nat) (iter : BIter),
    level < iter.path.length → level < iter.pos.length →
    ∃ it2, iterPrev get level iter = some it2 ∧
      it2.path.length = iter.path.length ∧ it2.pos.length = iter.pos.length := by
  intro level
  induction level with
  | zero =>
    intro iter hp hq
    simp only [iterPrev]
    rw [List.get?_eq_get hq]
    by_cases hpl : 0 < iter.pos.get ⟨0, hq⟩
    · simp only [hpl, if_true]
      obtain ⟨it2, he, h1, h2⟩ := iterPrevKid_spec get 0
        ⟨iter.path, iter.pos.set 0 (iter.pos.get ⟨0, hq⟩ - 1)⟩
        (by simpa using hp) (by simpa using hq)
      exact ⟨it2, he, by simpa using h1, by simpa using h2⟩
    · simp only [hpl, if_false]
      exact ⟨iter, rfl, rfl, rfl⟩
  | succ level ih =>
    intro iter hp hq
    simp only [iterPrev]
    rw [List.get?_eq_get hq]
    by_cases hpl : 0 < iter.pos.get ⟨level + 1, hq⟩
    · simp only [hpl, if_true]
      obtain ⟨it2, he, h1, h2⟩ := iterPrevKid_spec get (level + 1)
        ⟨iter.path, iter.pos.set (level + 1) (iter.pos.get ⟨level + 1, hq⟩ - 1)⟩
        (by simpa using hp) (by simpa using hq)
      exact ⟨it2, he, by simpa using h1, by simpa using h2⟩
    · simp only [hpl, if_false]
      obtain ⟨it1, he1, hp1, hq1⟩ := ih iter (by omega) (by omega)
      rw [he1]
      obtain ⟨it2, he2, hp2, hq2⟩ := iterPrevKid_spec get (level + 1) it1
        (by omega) (by omega)
      exact ⟨it2, he2, by omega, by omega⟩

/-- C10: Scanner.Next asserts Valid() on entry: when the scanner is out
of range or its iterator exhausted (Valid() false) the call panics and
does not advance; when Valid() holds (and the iterator stacks are
consistent) the assertion never fires and Next returns a scanner. -/
theorem Scanner_Next_assert (sc : Scanner)
    (hlen : sc.iter.pos.length = sc.iter.path.length) :
    (Scanner.Valid sc = some false → Scanner.Next sc = none) ∧
    (Scanner.Valid sc = some true → ∃ sc2, Scanner.Next sc = some sc2) := by
  constructor
  · intro h
    simp [Scanner.Next, h]
  · intro h
    simp only [Scanner.Next, h]
    by_cases hcmp : 0 < sc.Cmp1
    · exact ⟨_, by rw [if_pos hcmp]⟩
    · rw [if_neg hcmp]
      have hv : ¬sc.iter.Valid = false := by
        intro hv
        simp [Scanner.Valid, hv] at h
      have hpos : 0 < sc.iter.path.length := by
        rcases Nat.eq_zero_or_pos sc.iter.path.length with h0 | h0
        · exact absurd (by simp [BIter.Valid, h0]) hv
        · exact h0
      unfold BIter.Prev
      have hne : ¬(sc.iter.path.length = 0) := by omega
      rw [if_neg hne]
      obtain ⟨it2, he, _, _⟩ := iterPrev_spec sc.get (sc.iter.path.length - 1)
        sc.iter (by omega) (by omega)
      rw [he]
      exact ⟨_, rfl⟩

/-- Witness for C10: Next succeeds on the concrete valid scanner. -/
theorem Scanner_Next_assert_witness : (Scanner.Next cScan).isSome = true := by
  obtain ⟨sc2, h⟩ := (Scanner_Next_assert cScan (by decide)).2 (by decide)
  rw [h]
  rfl

/-- C2: inserting an already-present key goes through LeafUpadate, which
grows the leaf from 2 to 3 keys: the new value lands at index 1 but the
stale entry (same key, old value) survives at index 2, so the update
adds a key instead of overwriting in place. -/
theorem TreeInsert_update_adds_key :
    cLeafKV.Nkeys = 2 ∧
    ((TreeInsert cStore0 cLeafKV [107] [99] 1).map
        fun p => (p.1.Nkeys, p.1.GetKey 1, p.1.GetVal 1, p.1.GetKey 2, p.1.GetVal 2)) =
      some (3, [107], [99], [107], [118]) := by
  exact ⟨by decide, by decide⟩

/-- C7 counterexample: build a tree with one Insert and delete that key;
Delete returns true but the root is a fresh nonzero page, not 0. -/
theorem Delete_last_key_root_nonzero :
    (((BTree.Insert ⟨0, cStore0⟩ [107] [118] 2).bind
        fun t1 => BTree.Delete t1 [107] 2).map
      fun r => (r.1, r.2.root)) = some (true, 2) ∧ (2 : Nat) ≠ 0 := by
  exact ⟨by decide, by decide⟩

/-- C7 (amended): deleting the only user key of a single-leaf tree built
by one Insert returns true and leaves a nonzero root pointing at a leaf
that holds only the dummy entry (nkeys = 1, empty key); the root is
never reset to 0 by Delete. -/
theorem Delete_last_key_dummy_leaf :
    (((BTree.Insert ⟨0, cStore0⟩ [107] [118] 2).bind
        fun t1 => BTree.Delete t1 [107] 2).map
      fun r => (r.1, r.2.root,
        (BNode.mk (r.2.store.get r.2.root)).Btype,
        (BNode.mk (r.2.store.get r.2.root)).Nkeys,
        (BNode.mk (r.2.store.get r.2.root)).GetKey 0)) =
      some (true, 2, BNODE_LEAF, 1, []) := by
  decide

/-- Shape of NodeSplit3 in the 2-way branch, stated symbolically. -/
theorem NodeSplit3_two_shape (old : BNode)
    (h1 : ¬(old.Nbytes ≤ BTREE_PAGE_SIZE))
    (h2 : (NodeSplit2 (List.replicate (2 * BTREE_PAGE_SIZE) 0)
        (List.replicate BTREE_PAGE_SIZE 0) old).1.Btype ≤ BTREE_PAGE_SIZE) :
    NodeSplit3 old = (2,
      [⟨(NodeSplit2 (List.replicate (2 * BTREE_PAGE_SIZE) 0)
          (List.replicate BTREE_PAGE_SIZE 0) old).1.Data.take BTREE_PAGE_SIZE⟩,
       (NodeSplit2 (List.replicate (2 * BTREE_PAGE_SIZE) 0)
          (List.replicate BTREE_PAGE_SIZE 0) old).2]) := by
  simp only [NodeSplit3]
  rw [if_neg h1, if_pos h2]

/-- C1: an insertion into the nearly-full leaf cLeafBig produces a node
of 4563 bytes (> one page); NodeSplit3 then reports a 2-way split whose
first returned node still measures 4563 bytes, far above the page size:
the byte-midpoint split of NodeSplit2 does not produce valid fitting
nodes, and the source checks left.Btype() instead of left.Nbytes(). -/
theorem NodeSplit3_oversized :
    BTREE_PAGE_SIZE < cBigNode.Nbytes ∧
    (NodeSplit3 cBigNode).1 = 2 ∧
    BTREE_PAGE_SIZE < ((NodeSplit3 cBigNode).2.getD 0 ⟨[]⟩).Nbytes := by
  have hb : cBigNode = LeafInsert ⟨List.replicate (2 * BTREE_PAGE_SIZE) 0⟩
      cLeafBig 3 [20] (List.replicate 1500 0) := by rfl
  have hlen : cBigNode.Data.length = 8192 := by
    rw [hb]
    rw [length_LeafInsert]
    show (List.replicate (2 * BTREE_PAGE_SIZE) 0).length = 8192
    rw [List.length_replicate]
    rfl
  have hnb : cBigNode.Nbytes = 4563 := by decide
  have hpair : NodeSplit2 (List.replicate (2 * BTREE_PAGE_SIZE) 0)
      (List.replicate BTREE_PAGE_SIZE 0) cBigNode =
      (⟨(copyAt (List.replicate (2 * BTREE_PAGE_SIZE) 0) 0
          (cBigNode.Data.take 4096)).take 4096⟩,
       ⟨(copyAt (List.replicate BTREE_PAGE_SIZE 0) 0
          (cBigNode.Data.drop 4096)).take 4096⟩) := by
    simp only [NodeSplit2]
    rw [hlen]
  have hbty : (NodeSplit2 (List.replicate (2 * BTREE_PAGE_SIZE) 0)
      (List.replicate BTREE_PAGE_SIZE 0) cBigNode).1.Btype ≤ BTREE_PAGE_SIZE := by
    rw [hpair]
    decide
  have hsh := NodeSplit3_two_shape cBigNode (by rw [hnb]; decide) hbty
  rw [hpair] at hsh
  refine ⟨by rw [hnb]; decide, by rw [hsh], ?_⟩
  rw [hsh]
  decide
